import Mathlib

/-!
# Verification of `Amqp-prtcl/config` (src/config.go)

Shallow embedding of the Go configuration-store package:

* `Config` embeds the Go `Config` struct (the mutex is dropped: every
  operation here is a pure function of the store's state, and the claims
  under study are about sequential behaviour);
* Go's `interface{}` values stored in the mapping are embedded as the
  inductive `GoVal`; `float64` is modelled as `ℚ` (the claims only depend
  on decimal parsing/printing of small literals, not on IEEE rounding);
* file I/O is made explicit: `LoadConfigFile` takes the outcome of
  `os.Open` (`OpenResult`), `SaveFile` takes the outcome of `os.Create`
  and a write-error schedule carried by the file handle `WFile`;
* the generic `Key[T Keyable]` accessor is embedded as `Key α` for a
  typeclass `GoType α` packaging the operations Go obtains from the
  concrete type: boxing (`encode`), the `case T:` dynamic type test
  (`asT`), `reflect.Kind` of `T`, and `reflect.Value.Convert` (`convert`).
-/

set_option maxHeartbeats 1000000

namespace ConfigGo

/-- The `reflect.Kind` values the source discriminates on. -/
inductive RKind where
  | rstring
  | rbool
  | rfloat64
  | rint
  | rslice
  | rmap
  | rstruct
  deriving DecidableEq, Repr

/-- Errors produced by the package (Go `error` values that actually occur
in the embedded code paths). -/
inductive GoErr where
  /-- `ErrKeyNotFound = fmt.Errorf("config file Get: key not found")` -/
  | keyNotFound
  /-- `fmt.Errorf("config file Get: failed to cast value (wanted type: %T but got type: %T)", ret, v)` -/
  | castError (wanted : String) (actual : String)
  /-- an operating-system I/O error (open/create/write failure) -/
  | ioError (msg : String)
  /-- `time.Time.UnmarshalText` failure -/
  | timeParseError (s : String)
  deriving DecidableEq, Repr

/-- `time.Time`, modelled by its RFC3339 text (the only way the package
observes a timestamp is through `UnmarshalText` of such a text). -/
structure GoTime where
  text : String
  deriving DecidableEq, Repr

/-- A dynamically-typed Go value (`interface{}`) of the kinds that occur in
this package: strings, `float64` numbers (as `ℚ`), booleans, `int`s,
`[]interface{}` slices, `map[string]interface{}` objects, and `time.Time`. -/
inductive GoVal where
  | vstr (s : String)
  | vfloat (q : ℚ)
  | vbool (b : Bool)
  | vint (n : ℤ)
  | varr (xs : List GoVal)
  | vobj (fs : List (String × GoVal))
  | vtime (t : GoTime)

/-- The Go dynamic type name of a value, as printed by `%T`. -/
def GoVal.dynTypeName : GoVal → String
  | .vstr _ => "string"
  | .vfloat _ => "float64"
  | .vbool _ => "bool"
  | .vint _ => "int"
  | .varr _ => "[]interface {}"
  | .vobj _ => "map[string]interface {}"
  | .vtime _ => "time.Time"

/-- `reflect.TypeOf(v).Kind()` for a stored value. -/
def GoVal.rkind : GoVal → RKind
  | .vstr _ => .rstring
  | .vfloat _ => .rfloat64
  | .vbool _ => .rbool
  | .vint _ => .rint
  | .varr _ => .rslice
  | .vobj _ => .rmap
  | .vtime _ => .rstruct

/-! ## Go map model

A Go `map[string]interface{}` is embedded as an association list with
unique-key update semantics: `mapGet` is `v, ok := m[k]`, `mapPut` is
`m[k] = v` (replace the existing binding, else append). Iteration order in
Go is unspecified; the list fixes one order, and statements about the file
writer carry a `Nodup` hypothesis on the keys where order could matter. -/

/-- `v, ok := m[k]` -/
def mapGet (m : List (String × GoVal)) (k : String) : Option GoVal :=
  match m with
  | [] => none
  | (k', v) :: rest => if k' = k then some v else mapGet rest k

/-- `m[k] = v` -/
def mapPut (m : List (String × GoVal)) (k : String) (v : GoVal) :
    List (String × GoVal) :=
  match m with
  | [] => [(k, v)]
  | (k', v') :: rest =>
    if k' = k then (k, v) :: rest else (k', v') :: mapPut rest k v

/-! ## Text utilities

The Go code manipulates file content through `bufio.Scanner` (ScanLines),
`strings.HasPrefix`/`strings.SplitN`, `strconv.ParseFloat`,
`strconv.ParseBool`, `strconv.FormatBool` and `fmt.Sprintf("%v=%v\n", ...)`.
These are embedded below over `List Char` so that every function is
structurally recursive and kernel-evaluable. -/

/-- Leading decimal digits of a character list, and the remainder. -/
def takeDigits : List Char → List Char × List Char
  | [] => ([], [])
  | c :: rest =>
    if c.isDigit then
      let (d, r) := takeDigits rest
      (c :: d, r)
    else ([], c :: rest)

/-- Value of a list of decimal digits (most significant first). -/
def digitsVal (l : List Char) : ℕ :=
  l.foldl (fun a c => a * 10 + (c.toNat - 48)) 0

/-- `strconv.ParseFloat(s, 64)`, on the plain decimal subset of its grammar:
`[+-]? (digits [. digits?] | . digits) ([eE] [+-]? digits)?`, whole input
consumed. The result is the exact rational value (the claims under study
depend only on parse success/failure and on exact small literals, not on
IEEE-754 rounding). Go's additional acceptances (hex floats, `Inf`/`NaN`,
digit-group underscores) and its out-of-range behaviour are outside the
inputs any theorem below touches. -/
def parseFloat (l : List Char) : Option ℚ :=
  let sl : ℤ × List Char :=
    match l with
    | '+' :: r => (1, r)
    | '-' :: r => (-1, r)
    | _ => (1, l)
  let ipr := takeDigits sl.2
  let fpr : List Char × List Char :=
    match ipr.2 with
    | '.' :: r => takeDigits r
    | _ => ([], ipr.2)
  if ipr.1.isEmpty && fpr.1.isEmpty then none
  else
    let mant : ℚ :=
      (sl.1 : ℚ) * ((digitsVal ipr.1 : ℚ) +
        (digitsVal fpr.1 : ℚ) / (10 : ℚ) ^ fpr.1.length)
    match fpr.2 with
    | [] => some mant
    | c :: r =>
      if c = 'e' ∨ c = 'E' then
        let er : ℤ × List Char :=
          match r with
          | '+' :: t => (1, t)
          | '-' :: t => (-1, t)
          | _ => (1, r)
        let ed := takeDigits er.2
        if ed.1.isEmpty || !ed.2.isEmpty then none
        else some (mant * (10 : ℚ) ^ (er.1 * (digitsVal ed.1 : ℤ)))
      else none

/-- `strconv.ParseBool`: accepts exactly these twelve literals. -/
def parseBool (s : String) : Option Bool :=
  if s = "1" ∨ s = "t" ∨ s = "T" ∨ s = "TRUE" ∨ s = "true" ∨ s = "True" then
    some true
  else if s = "0" ∨ s = "f" ∨ s = "F" ∨ s = "FALSE" ∨ s = "false" ∨ s = "False" then
    some false
  else none

/-- `strconv.FormatBool` (also the `%v` rendering of a boolean). -/
def formatBool (b : Bool) : String := if b then "true" else "false"

/-- Decimal fraction digits of `r / d` (`0 < r < d`), up to `fuel` digits. -/
def fracDigits : ℕ → ℕ → ℕ → List Char
  | 0, _, _ => []
  | _ + 1, 0, _ => []
  | fuel + 1, r, d =>
    Char.ofNat (48 + r * 10 / d) :: fracDigits fuel (r * 10 % d) d

/-- The `%v` (= `%g` shortest) rendering of a `float64`, modelled for values
whose decimal expansion terminates within 40 digits — which covers every
rendering the theorems below can reach; Go's switch to exponent form at
extreme magnitudes is elided. -/
def formatFloat (q : ℚ) : String :=
  let sign := if q < 0 then "-" else ""
  let n := q.num.natAbs
  if n % q.den = 0 then sign ++ Nat.repr (n / q.den)
  else sign ++ Nat.repr (n / q.den) ++ "." ++
    (fracDigits 40 (n % q.den) q.den).asString

/-- Split a character list at every occurrence of `sep`. -/
def splitOnChar (sep : Char) : List Char → List (List Char)
  | [] => [[]]
  | c :: rest =>
    if c = sep then [] :: splitOnChar sep rest
    else
      match splitOnChar sep rest with
      | [] => [[c]]
      | y :: ys => (c :: y) :: ys

/-- Drop one trailing carriage return, as `bufio.ScanLines` does. -/
def stripCR (l : List Char) : List Char :=
  match l.getLast? with
  | some '\r' => l.dropLast
  | _ => l

/-- The sequence of tokens produced by `bufio.Scanner` with `ScanLines`:
split at newlines, no empty token for a trailing newline, one trailing
`\r` stripped per line. -/
def scanLines (content : List Char) : List (List Char) :=
  let parts := splitOnChar '\n' content
  let parts :=
    match parts.getLast? with
    | some [] => parts.dropLast
    | _ => parts
  parts.map stripCR

/-- `strings.SplitN(l, sep, 2)` when it yields two parts: the text before
the first `sep` and everything after it; `none` when `sep` is absent. -/
def splitFirst (sep : Char) : List Char → Option (List Char × List Char)
  | [] => none
  | c :: rest =>
    if c = sep then some ([], rest)
    else
      match splitFirst sep rest with
      | none => none
      | some (a, b) => some (c :: a, b)

/-! ## The store and its file operations (src/config.go) -/

/-- `type ConfigType int` with its two declared constants `Json = 0` and
`Line = 1`. The `default` arms of the switches in `LoadConfigFile` and
`SaveFile` (reached only for an integer that is neither declared constant)
are outside this model; both claims-relevant kinds are present. -/
inductive ConfigType where
  | Json
  | Line
  deriving DecidableEq, Repr

/-- The `Config` struct. The `sync.RWMutex` field is dropped: all
operations are embedded as pure state transformers, so locking has no
observable effect on the sequential properties studied here. -/
structure Config where
  /-- the Go field `Config map[string]interface{}` (renamed: a field may
  not share the structure's name in Lean) -/
  values : List (String × GoVal)
  Filepath : String
  /-- the Go field `Type ConfigType` (renamed: `Type` is reserved) -/
  ctype : ConfigType

/-- `func (c *Config) Get(key string) (interface{}, bool)` — the `bool`
is the `Option`. -/
def Config.Get (c : Config) (key : String) : Option GoVal :=
  mapGet c.values key

/-- `func (c *Config) Put(key string, val interface{})`. -/
def Config.Put (c : Config) (key : String) (val : GoVal) : Config :=
  { c with values := mapPut c.values key val }

/-- `func (c *Config) GetCopyOfConfig() map[string]interface{}` — a
shallow copy of the mapping. -/
def Config.GetCopyOfConfig (c : Config) : List (String × GoVal) :=
  c.values.map (fun p => p)

/-- The outcome of `os.Open(filepath)`: the file is absent
(`os.IsNotExist(err)`), opening failed for another reason, or it was
opened and its whole content is the given text. -/
inductive OpenResult where
  | notExist
  | openErr (e : GoErr)
  | ok (content : String)

/-- `func parseFileJSON` is never reached for the two declared
`ConfigType` constants (see `LoadConfigFile`), so the JSON grammar needs
no embedding here; `parseFileLine` below is the parser both constants
select. -/
def lineStep (m : List (String × GoVal)) (line : List Char) :
    List (String × GoVal) :=
  if line.head? = some '#' then m
  else
    match splitFirst '=' line with
    | none => m
    | some (k, v) =>
      match parseFloat v with
      | some q => mapPut m ⟨k⟩ (.vfloat q)
      | none => mapPut m ⟨k⟩ (.vstr ⟨v⟩)

/-- `func parseFileLine(f *os.File) (map[string]interface{}, error)`:
scan lines; skip `#`-prefixed lines; for lines containing `=`, split at
the first `=`; store the value as `float64` when `strconv.ParseFloat`
succeeds, else as the raw string. The scanner error is `nil` for
in-memory content, so the embedding is total. -/
def parseFileLine (content : String) : List (String × GoVal) :=
  (scanLines content.data).foldl lineStep []

/-- `func LoadConfigFile(filepath string, configType ConfigType) (*Config, error)`:
a fresh store; absent file → the empty store, no error; other open error →
that error. For content, the switch sends **both** `Json` and `Line` to
`parseFileLine` (the `default` arm, which corrects the type to `Json` and
calls `parseFileJSON`, is unreachable for the declared constants). -/
def LoadConfigFile (filepath : String) (opened : OpenResult)
    (configType : ConfigType) : Except GoErr Config :=
  let config : Config := ⟨[], filepath, configType⟩
  match opened with
  | .notExist => .ok config
  | .openErr e => .error e
  | .ok content =>
    match configType with
    | .Json => .ok { config with values := parseFileLine content }
    | .Line => .ok { config with values := parseFileLine content }

/-- An open file handle for writing: the text written so far, plus the
results the operating system will return for the successive `Write`
calls (`none` = success; an exhausted schedule means success). -/
structure WFile where
  written : List Char
  errs : List (Option GoErr)
  deriving Repr

/-- `f.Write(b)`: consume the next scheduled outcome; append the bytes on
success, report the error (with nothing written) on failure. -/
def fwrite (f : WFile) (b : List Char) : WFile × Option GoErr :=
  match f.errs with
  | [] => (⟨f.written ++ b, []⟩, none)
  | none :: rest => (⟨f.written ++ b, rest⟩, none)
  | some e :: rest => (⟨f.written, rest⟩, some e)

/-- Does `reflect.TypeOf(v).Kind()` fall in the writable set of
`writeFileLine` (ints, uints, floats, string, bool)? Slices, maps and
structs (`time.Time`) do not. -/
def lineKind : GoVal → Bool
  | .vstr _ => true
  | .vfloat _ => true
  | .vbool _ => true
  | .vint _ => true
  | .varr _ => false
  | .vobj _ => false
  | .vtime _ => false

/-- The `%v` rendering of a writable value (junk `""` for the kinds
`writeFileLine` skips). -/
def renderVal : GoVal → String
  | .vstr s => s
  | .vfloat q => formatFloat q
  | .vbool b => formatBool b
  | .vint n => Int.repr n
  | _ => ""

/-- `fmt.Sprintf("%v=%v\n", k, v)`. -/
def renderLine (k : String) (v : GoVal) : List Char :=
  k.data ++ '=' :: (renderVal v).data ++ ['\n']

/-- `func writeFileLine(f *os.File, m map[string]interface{}) error`:
for every entry of writable kind, one `f.Write` of `key=value\n` whose
error result is **discarded** (the source calls `f.Write(...)` without
inspecting its return values); always `return nil`. -/
def writeFileLine (f : WFile) (m : List (String × GoVal)) :
    WFile × Option GoErr :=
  (m.foldl
    (fun f p => if lineKind p.2 then (fwrite f (renderLine p.1 p.2)).1 else f)
    f, none)

/-- The outcome of `os.Create(c.Filepath)`. -/
inductive CreateResult where
  | createErr (e : GoErr)
  | created (f : WFile)

/-- `func (c *Config) SaveFile() error`: a create error is returned; else
the switch sends **both** `Json` and `Line` to `writeFileLine` (the
`default` arm with `writeFileJSON` is unreachable for the declared
constants). Result: the file handle after writing (when one was created)
and the returned error. -/
def Config.SaveFile (c : Config) (cr : CreateResult) :
    Option WFile × Option GoErr :=
  match cr with
  | .createErr e => (none, some e)
  | .created f =>
    match c.ctype with
    | .Json =>
      let r := writeFileLine f c.values
      (some r.1, r.2)
    | .Line =>
      let r := writeFileLine f c.values
      (some r.1, r.2)

/-! ## The typed accessor layer (src key file, struct-based `Key[T]`)

Go instantiates `Key[T Keyable]` at a concrete static type `T`; the class
`GoType α` packages exactly what the Go code obtains from `T`:

* `encode` — boxing a `T` into an `interface{}` (used by `Put`);
* `asT` — the `case T:` arm of the type switch (dynamic type test);
* `kind` — `reflect.ValueOf(ret).Kind()` for the zero `ret T`;
* `fromString`/`fromBool` — the guarded assertions
  `interface{}(strconv.FormatBool(v)).(T)` / `interface{}(b).(T)`, which
  the source only executes after checking `kind`; for instances of other
  kinds they are unreachable and hold junk values;
* `convert` — `reflect.Value.CanConvert`/`Convert` from the stored
  value's dynamic type to `T`;
* `asT_encode` — in Go, a value boxed at type `T` always matches
  `case T:`. -/
class GoType (α : Type) where
  typeName : String
  encode : α → GoVal
  asT : GoVal → Option α
  kind : RKind
  fromString : String → α
  fromBool : Bool → α
  convert : GoVal → Option α
  asT_encode : ∀ a : α, asT (encode a) = some a

/-- The Go conversion `string(rune-value)` applied to an `int` (what
`reflect.Value.Convert` does for `int` → `string`): the code point's
UTF-8 text, or `"�"` when out of range. -/
def goIntString (n : ℤ) : String :=
  if (0 ≤ n ∧ n < 0xD800) ∨ (0xE000 ≤ n ∧ n ≤ 0x10FFFF) then
    String.singleton (Char.ofNat n.toNat)
  else "�"

/-- `T = string`. -/
instance : GoType String where
  typeName := "string"
  encode := .vstr
  asT := fun v => match v with | .vstr s => some s | _ => none
  kind := .rstring
  fromString := id
  fromBool := fun _ => ""
  convert := fun v =>
    match v with
    | .vstr s => some s
    | .vint n => some (goIntString n)
    | _ => none
  asT_encode := fun _ => rfl

/-- `T = bool`: `reflect` permits no conversion to `bool` from any other
kind. -/
instance : GoType Bool where
  typeName := "bool"
  encode := .vbool
  asT := fun v => match v with | .vbool b => some b | _ => none
  kind := .rbool
  fromString := fun _ => false
  fromBool := id
  convert := fun v => match v with | .vbool b => some b | _ => none
  asT_encode := fun _ => rfl

/-- `T = float64` (modelled as `ℚ`): `reflect` converts `int` to
`float64`. -/
instance : GoType ℚ where
  typeName := "float64"
  encode := .vfloat
  asT := fun v => match v with | .vfloat q => some q | _ => none
  kind := .rfloat64
  fromString := fun _ => 0
  fromBool := fun _ => 0
  convert := fun v =>
    match v with
    | .vfloat q => some q
    | .vint n => some (n : ℚ)
    | _ => none
  asT_encode := fun _ => rfl

/-- `type Key[T Keyable] struct { Key string; Default T }` (the field
`Key` is lowercased: a field may not share the structure's name). -/
structure Key (α : Type) where
  key : String
  Default : α

/-- `type TimeKey struct { Key string; Default time.Time }`. -/
structure TimeKey where
  key : String
  Default : GoTime

/-- `func (k Key[T]) Get(c *Config) T`: absent → `Default`; `case T:` →
the value; bool→string and string→bool bridges guarded by the kind of
`T`; then `reflect` conversion; else `Default`. -/
def Key.Get {α : Type} [g : GoType α] (k : Key α) (c : Config) : α :=
  match c.Get k.key with
  | none => k.Default
  | some v =>
    match g.asT v with
    | some t => t
    | none =>
      let bridged : Option α :=
        match v with
        | .vbool b =>
          if g.kind = RKind.rstring then some (g.fromString (formatBool b))
          else none
        | .vstr s =>
          if g.kind = RKind.rbool then (parseBool s).map g.fromBool
          else none
        | _ => none
      match bridged with
      | some t => t
      | none =>
        match g.convert v with
        | some t => t
        | none => k.Default

/-- `func (k Key[T]) GetErr(c *Config) (T, error)`: the same decision
sequence as `Get` (the source duplicates it), but absent →
`ErrKeyNotFound` and an unconvertible value → the cast error naming the
wanted (`%T` of `ret`) and actual (`%T` of `v`) types. -/
def Key.GetErr {α : Type} [g : GoType α] (k : Key α) (c : Config) :
    Except GoErr α :=
  match c.Get k.key with
  | none => .error .keyNotFound
  | some v =>
    match g.asT v with
    | some t => .ok t
    | none =>
      let bridged : Option α :=
        match v with
        | .vbool b =>
          if g.kind = RKind.rstring then some (g.fromString (formatBool b))
          else none
        | .vstr s =>
          if g.kind = RKind.rbool then (parseBool s).map g.fromBool
          else none
        | _ => none
      match bridged with
      | some t => .ok t
      | none =>
        match g.convert v with
        | some t => .ok t
        | none => .error (.castError g.typeName v.dynTypeName)

/-- `func (k Key[T]) Put(c *Config, v T)`. -/
def Key.Put {α : Type} [g : GoType α] (k : Key α) (c : Config) (v : α) :
    Config :=
  c.Put k.key (g.encode v)

/-- `func (k Key[T]) Sync(c *Config)`: write `Default` exactly when
`GetErr` fails. -/
def Key.Sync {α : Type} [GoType α] (k : Key α) (c : Config) : Config :=
  match k.GetErr c with
  | .error _ => k.Put c k.Default
  | .ok _ => c

/-- Does a character list have the shape of a basic RFC3339 text,
`YYYY-MM-DDTHH:MM:SS` followed by `Z` or `±HH:MM`? -/
def rfc3339Shape (l : List Char) : Bool :=
  match l with
  | y1 :: y2 :: y3 :: y4 :: '-' :: m1 :: m2 :: '-' :: d1 :: d2 :: 'T' ::
    h1 :: h2 :: ':' :: mi1 :: mi2 :: ':' :: s1 :: s2 :: rest =>
    ([y1, y2, y3, y4, m1, m2, d1, d2, h1, h2, mi1, mi2, s1, s2].all
      Char.isDigit) &&
    (match rest with
     | ['Z'] => true
     | [sgn, o1, o2, ':', o3, o4] =>
       (sgn = '+' || sgn = '-') && [o1, o2, o3, o4].all Char.isDigit
     | _ => false)
  | _ => false

/-- `time.Time.UnmarshalText` (RFC3339 text). Modelled as the shape check
above; field-range validation and fractional seconds are elided — no
theorem below depends on this verdict (the claims reach the timestamp
parse only behind a string accessor that already failed). -/
def unmarshalText (s : String) : Except GoErr GoTime :=
  if rfc3339Shape s.data then .ok ⟨s⟩ else .error (.timeParseError s)

/-- `func (k TimeKey) Get(c *Config) time.Time`: read through
`Key[string]{k.Key, ""}`; on accessor error or parse error return
`k.Default`. -/
def TimeKey.Get (k : TimeKey) (c : Config) : GoTime :=
  let ck : Key String := ⟨k.key, ""⟩
  match ck.GetErr c with
  | .error _ => k.Default
  | .ok str =>
    match unmarshalText str with
    | .error _ => k.Default
    | .ok t => t

/-- `func (k TimeKey) GetErr(c *Config) (time.Time, error)`. -/
def TimeKey.GetErr (k : TimeKey) (c : Config) : Except GoErr GoTime :=
  let ck : Key String := ⟨k.key, ""⟩
  match ck.GetErr c with
  | .error e => .error e
  | .ok str => unmarshalText str

/-- `func (k TimeKey) Put(c *Config, v time.Time)`: the source stores the
`time.Time` value `v` itself (`c.Put(k.Key, v)`), boxed as an
`interface{}` of dynamic type `time.Time` — not a textual rendering. -/
def TimeKey.Put (k : TimeKey) (c : Config) (v : GoTime) : Config :=
  c.Put k.key (.vtime v)

/-! ## Derived notions for the line-codec round trip -/

/-- The text `writeFileLine` emits for a mapping (error-free file). -/
def renderAll (m : List (String × GoVal)) : List Char :=
  match m with
  | [] => []
  | (k, v) :: rest => (if lineKind v then renderLine k v else []) ++ renderAll rest

/-- The `key=value` tokens (no terminator) of the writable entries. -/
def linesOf (m : List (String × GoVal)) : List (List Char) :=
  match m with
  | [] => []
  | (k, v) :: rest =>
    if lineKind v then (k.data ++ '=' :: (renderVal v).data) :: linesOf rest
    else linesOf rest

/-- A key name the line format transports verbatim: no newline, no `=`,
not comment-prefixed. -/
def goodKey (k : String) : Prop :=
  '\n' ∉ k.data ∧ '=' ∉ k.data ∧ k.data.head? ≠ some '#'

instance (k : String) : Decidable (goodKey k) :=
  inferInstanceAs (Decidable ('\n' ∉ k.data ∧ '=' ∉ k.data ∧
    k.data.head? ≠ some '#'))

/-- A store mapping the line codec transports without interference between
entries: unique keys, each key plain (`goodKey`), and each writable
value's rendering free of newlines and not ending in a carriage return. -/
def LineRoundSafe (m : List (String × GoVal)) : Prop :=
  (m.map Prod.fst).Nodup ∧
  ∀ p ∈ m, goodKey p.1 ∧
    (lineKind p.2 = true → '\n' ∉ (renderVal p.2).data ∧
      (renderVal p.2).data.getLast? ≠ some '\r')

instance (m : List (String × GoVal)) : Decidable (LineRoundSafe m) :=
  inferInstanceAs (Decidable ((m.map Prod.fst).Nodup ∧
    ∀ p ∈ m, goodKey p.1 ∧
      (lineKind p.2 = true → '\n' ∉ (renderVal p.2).data ∧
        (renderVal p.2).data.getLast? ≠ some '\r')))

/-! ## Helper lemmas -/

@[simp] theorem mapGet_nil (k : String) : mapGet [] k = none := rfl

@[simp] theorem mapGet_cons (k' : String) (v : GoVal)
    (rest : List (String × GoVal)) (k : String) :
    mapGet ((k', v) :: rest) k = if k' = k then some v else mapGet rest k := rfl

theorem mapGet_mapPut_self (m : List (String × GoVal)) (k : String) (v : GoVal) :
    mapGet (mapPut m k v) k = some v := by
  induction m with
  | nil => simp [mapPut]
  | cons p rest ih =>
    obtain ⟨k', v'⟩ := p
    by_cases h : k' = k <;> simp [mapPut, h, ih]

theorem mapGet_mapPut_ne (m : List (String × GoVal)) (k k' : String) (v : GoVal)
    (h : k ≠ k') : mapGet (mapPut m k v) k' = mapGet m k' := by
  induction m with
  | nil => simp [mapPut, h]
  | cons p rest ih =>
    obtain ⟨k₀, v₀⟩ := p
    by_cases h₀ : k₀ = k
    · subst h₀
      simp [mapPut, h]
    · simp [mapPut, h₀, ih]


theorem configGet_put_self (c : Config) (k : String) (v : GoVal) :
    (c.Put k v).Get k = some v :=
  mapGet_mapPut_self _ _ _

theorem key_getErr_put_self {α : Type} [g : GoType α] (k : Key α)
    (c : Config) (v : α) : k.GetErr (k.Put c v) = .ok v := by
  simp only [Key.GetErr, Key.Put, configGet_put_self, g.asT_encode]

/-! ## Claim theorems -/

/-- C5: loading a nonexistent path with either codec kind returns a store
with an empty mapping and no error, and `Get` on that store is not-found
for every key. -/
theorem load_absent_returns_empty_store (p : String) (t : ConfigType) :
    LoadConfigFile p .notExist t = .ok ⟨[], p, t⟩ ∧
    ∀ key : String, Config.Get ⟨[], p, t⟩ key = none :=
  ⟨rfl, fun _ => rfl⟩

/-- C6: for a key name absent from the store, the typed accessor's `Get`
returns its default and `GetErr` fails with `ErrKeyNotFound`. -/
theorem absent_key_default_and_keyNotFound {α : Type} [g : GoType α]
    (c : Config) (k : Key α) (h : c.Get k.key = none) :
    k.Get c = k.Default ∧ k.GetErr c = .error .keyNotFound := by
  constructor
  · simp only [Key.Get, h]
  · simp only [Key.GetErr, h]

/-- Witness for C6 at `Key<string>{"k", "d"}` over the empty store. -/
theorem absent_key_default_and_keyNotFound_witness :
    Config.Get ⟨[], "p", .Line⟩ "k" = none ∧
    Key.Get (⟨"k", "d"⟩ : Key String) ⟨[], "p", .Line⟩ = "d" ∧
    Key.GetErr (⟨"k", "d"⟩ : Key String) ⟨[], "p", .Line⟩ =
      .error .keyNotFound :=
  ⟨rfl, (absent_key_default_and_keyNotFound ⟨[], "p", .Line⟩ ⟨"k", "d"⟩ rfl).1,
    (absent_key_default_and_keyNotFound ⟨[], "p", .Line⟩ ⟨"k", "d"⟩ rfl).2⟩

/-- C7: the boolean/string bridge. Storing boolean `true` (resp. `false`)
and reading through `Key<string>` yields `"true"` (resp. `"false"`);
storing string `"false"` and reading through `Key<bool>{k, true}` yields
`false`; in general a stored string accepted by `strconv.ParseBool` is
returned as that boolean. -/
theorem bool_string_bridge (c : Config) (name : String) :
    Key.Get (⟨name, ""⟩ : Key String) (c.Put name (.vbool true)) = "true" ∧
    Key.Get (⟨name, ""⟩ : Key String) (c.Put name (.vbool false)) = "false" ∧
    Key.Get (⟨name, true⟩ : Key Bool) (c.Put name (.vstr "false")) = false ∧
    ∀ (s : String) (b d : Bool), parseBool s = some b →
      Key.Get (⟨name, d⟩ : Key Bool) (c.Put name (.vstr s)) = b := by
  refine ⟨?_, ?_, ?_, ?_⟩
  · simp only [Key.Get, configGet_put_self]
    rfl
  · simp only [Key.Get, configGet_put_self]
    rfl
  · simp only [Key.Get, configGet_put_self]
    rfl
  · intro s b d hb
    simp only [Key.Get, configGet_put_self, hb]
    rfl

/-- Witness for C7's parametric clause at `s = "t"`. -/
theorem bool_string_bridge_witness :
    parseBool "t" = some true ∧
    Key.Get (⟨"k", false⟩ : Key Bool)
      (Config.Put ⟨[], "p", .Line⟩ "k" (.vstr "t")) = true :=
  ⟨rfl, (bool_string_bridge ⟨[], "p", .Line⟩ "k").2.2.2 "t" true false rfl⟩

/-- The common decision sequence of `Get` and `GetErr`: on every store and
key, either both succeed on the same value, or both fail (`Get` falling
back to the default). -/
theorem getErr_get_cases {α : Type} [g : GoType α] (c : Config) (k : Key α) :
    (∃ v : α, k.GetErr c = .ok v ∧ k.Get c = v) ∨
    (∃ e : GoErr, k.GetErr c = .error e ∧ k.Get c = k.Default) := by
  unfold Key.Get Key.GetErr
  cases hl : c.Get k.key with
  | none => right; exact ⟨_, rfl, rfl⟩
  | some v =>
    dsimp only
    cases ha : g.asT v with
    | some t => left; exact ⟨t, rfl, rfl⟩
    | none =>
      dsimp only
      cases v with
      | vbool b =>
        by_cases hk : GoType.kind α = RKind.rstring
        · simp only [hk, if_pos]
          left; exact ⟨_, rfl, rfl⟩
        · simp only [hk, if_neg, ite_false]
          cases hc : g.convert (GoVal.vbool b) with
          | some t => left; exact ⟨t, rfl, rfl⟩
          | none => right; exact ⟨_, rfl, rfl⟩
      | vstr s =>
        by_cases hk : GoType.kind α = RKind.rbool
        · simp only [hk, if_pos]
          cases hp : parseBool s with
          | some b => left; exact ⟨_, rfl, rfl⟩
          | none =>
            cases hc : g.convert (GoVal.vstr s) with
            | some t => left; exact ⟨t, rfl, rfl⟩
            | none => right; exact ⟨_, rfl, rfl⟩
        · simp only [hk, if_neg, ite_false]
          cases hc : g.convert (GoVal.vstr s) with
          | some t => left; exact ⟨t, rfl, rfl⟩
          | none => right; exact ⟨_, rfl, rfl⟩
      | vfloat q =>
        cases hc : g.convert (GoVal.vfloat q) with
        | some t => left; exact ⟨t, rfl, rfl⟩
        | none => right; exact ⟨_, rfl, rfl⟩
      | vint n =>
        cases hc : g.convert (GoVal.vint n) with
        | some t => left; exact ⟨t, rfl, rfl⟩
        | none => right; exact ⟨_, rfl, rfl⟩
      | varr xs =>
        cases hc : g.convert (GoVal.varr xs) with
        | some t => left; exact ⟨t, rfl, rfl⟩
        | none => right; exact ⟨_, rfl, rfl⟩
      | vobj fs =>
        cases hc : g.convert (GoVal.vobj fs) with
        | some t => left; exact ⟨t, rfl, rfl⟩
        | none => right; exact ⟨_, rfl, rfl⟩
      | vtime t0 =>
        cases hc : g.convert (GoVal.vtime t0) with
        | some t => left; exact ⟨t, rfl, rfl⟩
        | none => right; exact ⟨_, rfl, rfl⟩

/-- C10: `Get` and `GetErr` are coherent — whenever `GetErr` succeeds
with `v`, `Get` returns the same `v`; whenever `GetErr` errors, `Get`
returns the accessor's default. -/
theorem get_refines_getErr {α : Type} [g : GoType α] (c : Config) (k : Key α) :
    (∀ v : α, k.GetErr c = .ok v → k.Get c = v) ∧
    (∀ e : GoErr, k.GetErr c = .error e → k.Get c = k.Default) := by
  rcases getErr_get_cases c k with ⟨v, hv, hg⟩ | ⟨e, he, hg⟩ <;>
    constructor <;> intro x hx
  · rw [hv] at hx
    injection hx with h
    rw [hg, h]
  · rw [hv] at hx
    exact absurd hx (by simp)
  · rw [he] at hx
    exact absurd hx (by simp)
  · exact hg

/-- Witness for C10 on a store holding `"x"` under `"k"`. -/
theorem get_refines_getErr_witness :
    Key.GetErr (⟨"k", "d"⟩ : Key String) ⟨[("k", .vstr "x")], "p", .Line⟩ =
      .ok "x" ∧
    Key.Get (⟨"k", "d"⟩ : Key String) ⟨[("k", .vstr "x")], "p", .Line⟩ =
      "x" :=
  ⟨rfl, (get_refines_getErr ⟨[("k", .vstr "x")], "p", .Line⟩
    (⟨"k", "d"⟩ : Key String)).1 "x" rfl⟩

/-- C8: `Sync` is idempotent — the second of two successive calls changes
nothing — and it writes the default exactly when `GetErr` fails,
leaving the store untouched otherwise. -/
theorem sync_idempotent {α : Type} [g : GoType α] (c : Config) (k : Key α) :
    k.Sync (k.Sync c) = k.Sync c ∧
    (∀ v : α, k.GetErr c = .ok v → k.Sync c = c) ∧
    (∀ e : GoErr, k.GetErr c = .error e → k.Sync c = k.Put c k.Default) := by
  have h2 : ∀ v : α, k.GetErr c = .ok v → k.Sync c = c := by
    intro v hv
    unfold Key.Sync
    rw [hv]
  have h3 : ∀ e : GoErr, k.GetErr c = .error e → k.Sync c = k.Put c k.Default := by
    intro e he
    unfold Key.Sync
    rw [he]
  refine ⟨?_, h2, h3⟩
  cases hge : k.GetErr c with
  | ok v => rw [h2 v hge, h2 v hge]
  | error e =>
    rw [h3 e hge]
    unfold Key.Sync
    rw [key_getErr_put_self]

/-- Witness for C8 at `Key<string>{"k", "d"}` over the empty store. -/
theorem sync_idempotent_witness :
    Key.GetErr (⟨"k", "d"⟩ : Key String) ⟨[], "p", .Line⟩ =
      .error .keyNotFound ∧
    Key.Sync (⟨"k", "d"⟩ : Key String) ⟨[], "p", .Line⟩ =
      Key.Put (⟨"k", "d"⟩ : Key String) ⟨[], "p", .Line⟩ "d" ∧
    Key.Sync (⟨"k", "d"⟩ : Key String)
        (Key.Sync (⟨"k", "d"⟩ : Key String) ⟨[], "p", .Line⟩) =
      Key.Sync (⟨"k", "d"⟩ : Key String) ⟨[], "p", .Line⟩ :=
  ⟨rfl,
    (sync_idempotent ⟨[], "p", .Line⟩ (⟨"k", "d"⟩ : Key String)).2.2
      .keyNotFound rfl,
    (sync_idempotent ⟨[], "p", .Line⟩ (⟨"k", "d"⟩ : Key String)).1⟩

/-- C3 (code-bug evidence): `TimeKey.Put` stores the raw `time.Time`
value itself — the stored `DynamicValue` has struct kind, not string
kind — and consequently `TimeKey.Get` on the freshly put entry cannot
read it back and returns the accessor's default. -/
theorem timeKeyPut_stores_raw_time (c : Config) (k : TimeKey) (v : GoTime) :
    (k.Put c v).Get k.key = some (.vtime v) ∧
    ((k.Put c v).Get k.key).map GoVal.rkind = some RKind.rstruct ∧
    TimeKey.Get k (k.Put c v) = k.Default := by
  have hl : (k.Put c v).Get k.key = some (.vtime v) :=
    configGet_put_self c k.key (.vtime v)
  refine ⟨hl, by rw [hl]; rfl, ?_⟩
  have herr : Key.GetErr (⟨k.key, ""⟩ : Key String) (k.Put c v) =
      .error (.castError "string" "time.Time") := by
    simp only [Key.GetErr, TimeKey.Put, configGet_put_self]
    rfl
  unfold TimeKey.Get
  dsimp only
  rw [herr]

/-- C1 (code-bug evidence): loading the single-object JSON file
`{"a": 1}` with codec kind `Json` runs the LINE parser (see the switch in
`LoadConfigFile`), which skips the line for want of a `=`, yielding an
empty mapping instead of the decoded object. -/
theorem loadJson_runs_line_codec :
    LoadConfigFile "/tmp/a.cfg" (.ok "\x7b\"a\": 1\x7d") .Json =
      .ok ⟨[], "/tmp/a.cfg", .Json⟩ := rfl

theorem digitsVal_3 : digitsVal ['3'] = 3 := rfl

theorem digitsVal_14 : digitsVal ['1', '4'] = 14 := rfl

theorem mant_314 : ((1 : ℤ) : ℚ) * ((digitsVal ['3'] : ℚ) +
    (digitsVal ['1', '4'] : ℚ) / (10 : ℚ) ^ (['1', '4'].length)) =
    (3.14 : ℚ) := by
  rw [digitsVal_3, digitsVal_14]
  norm_num

/-- C2 (code-bug evidence): with codec kind `Json`, saving the store
`{"k": "3.14"}` writes the LINE format `k=3.14\n` (writer switch bug) and
loading that file back with `Json` parses it with the LINE parser, so
the JSON-representable string `"3.14"` comes back as the number `3.14` —
the mapping is not preserved. -/
theorem jsonRoundtrip_goes_through_line_codec :
    Config.SaveFile ⟨[("k", GoVal.vstr "3.14")], "p", .Json⟩
        (.created ⟨[], []⟩) = (some ⟨"k=3.14\n".data, []⟩, none) ∧
    LoadConfigFile "p" (.ok "k=3.14\n") .Json =
      .ok ⟨[("k", GoVal.vfloat (3.14 : ℚ))], "p", .Json⟩ := by
  constructor
  · rfl
  · have h : LoadConfigFile "p" (.ok "k=3.14\n") .Json =
        .ok ⟨[("k", GoVal.vfloat (((1 : ℤ) : ℚ) * ((digitsVal ['3'] : ℚ) +
          (digitsVal ['1', '4'] : ℚ) / (10 : ℚ) ^ (['1', '4'].length))))],
          "p", .Json⟩ := rfl
    rw [h, mant_314]

/-- C4 (counterexample): with the line-format writer, a failing `Write`
is ignored — saving `{"k": "v"}` to a file whose (single) write call
fails reports **no** error, even though the failure occurred and nothing
was written. -/
theorem saveFile_swallows_write_error :
    Config.SaveFile ⟨[("k", GoVal.vstr "v")], "p", .Line⟩
        (.created ⟨[], [some (.ioError "disk full")]⟩) =
      (some ⟨[], []⟩, none) ∧
    (fwrite ⟨[], [some (.ioError "disk full")]⟩
        (renderLine "k" (GoVal.vstr "v"))).2 = some (.ioError "disk full") :=
  ⟨rfl, rfl⟩

/-- C4 (amended): `SaveFile` returns exactly the `os.Create` error when
creation fails; once a file handle exists, the line-format writer used
for both declared codec kinds discards every per-write error, so
`SaveFile` returns no error regardless of write failures. -/
theorem saveFile_error_only_from_create (c : Config) :
    (∀ e : GoErr, Config.SaveFile c (.createErr e) = (none, some e)) ∧
    (∀ f : WFile, (Config.SaveFile c (.created f)).2 = none) := by
  constructor
  · intro e
    rfl
  · intro f
    rcases c with ⟨vals, p, t⟩
    cases t <;> rfl

/-! ## Line-codec round trip (C9) -/

theorem splitOnChar_append_line (l rest : List Char) (h : '\n' ∉ l) :
    splitOnChar '\n' (l ++ '\n' :: rest) = l :: splitOnChar '\n' rest := by
  induction l with
  | nil => simp [splitOnChar]
  | cons c cs ih =>
    have hc : ¬(c = '\n') := fun e => h (e ▸ List.mem_cons_self c cs)
    have h' : '\n' ∉ cs := fun m => h (List.mem_cons_of_mem _ m)
    simp only [List.cons_append, splitOnChar, hc, if_false, ite_false,
      List.append_eq, ih h']

theorem stripCR_eq_self (l : List Char) (h : l.getLast? ≠ some '\r') :
    stripCR l = l := by
  unfold stripCR
  split
  · rename_i heq
    exact absurd heq h
  · rfl

theorem keyline_getLast_ne (a b : List Char) (hb : b.getLast? ≠ some '\r') :
    (a ++ '=' :: b).getLast? ≠ some '\r' := by
  rcases List.eq_nil_or_concat b with rfl | ⟨b', ch, rfl⟩
  · show (a ++ ['=']).getLast? ≠ some '\r'
    rw [List.getLast?_concat]
    simp
  · rw [List.concat_eq_append] at hb ⊢
    have hch : ch ≠ '\r' := by
      rw [List.getLast?_concat] at hb
      exact fun e => hb (by rw [e])
    have hassoc : a ++ '=' :: (b' ++ [ch]) = (a ++ '=' :: b') ++ [ch] := by
      simp [List.append_assoc]
    rw [hassoc, List.getLast?_concat]
    exact fun e => hch (by injection e)

theorem splitFirst_keyline (a b : List Char) (h : '=' ∉ a) :
    splitFirst '=' (a ++ '=' :: b) = some (a, b) := by
  induction a with
  | nil => simp [splitFirst]
  | cons c cs ih =>
    have hc : ¬(c = '=') := fun e => h (e ▸ List.mem_cons_self c cs)
    have h' : '=' ∉ cs := fun m => h (List.mem_cons_of_mem _ m)
    simp only [List.cons_append, splitFirst, hc, ite_false, List.append_eq,
      ih h']

theorem foldl_write (m : List (String × GoVal)) (w : List Char) :
    List.foldl
      (fun f p => if lineKind p.2 then (fwrite f (renderLine p.1 p.2)).1 else f)
      (⟨w, []⟩ : WFile) m = ⟨w ++ renderAll m, []⟩ := by
  induction m generalizing w with
  | nil => simp [renderAll]
  | cons p rest ih =>
    obtain ⟨k, v⟩ := p
    by_cases h : lineKind v = true
    · have hs : (fwrite (⟨w, []⟩ : WFile) (renderLine k v)).1 =
          (⟨w ++ renderLine k v, []⟩ : WFile) := rfl
      simp only [List.foldl_cons, h, if_true, hs, ih, renderAll,
        List.append_assoc]
    · simp [List.foldl_cons, h, ih, renderAll]

theorem writeFileLine_ok (m : List (String × GoVal)) (w : List Char) :
    writeFileLine ⟨w, []⟩ m = (⟨w ++ renderAll m, []⟩, none) := by
  unfold writeFileLine
  rw [foldl_write]

theorem splitOnChar_renderAll (m : List (String × GoVal))
    (hm : ∀ p ∈ m, lineKind p.2 = true →
      '\n' ∉ p.1.data ∧ '\n' ∉ (renderVal p.2).data) :
    splitOnChar '\n' (renderAll m) = linesOf m ++ [[]] := by
  induction m with
  | nil => rfl
  | cons p rest ih =>
    obtain ⟨k, v⟩ := p
    have hrest : ∀ p ∈ rest, lineKind p.2 = true →
        '\n' ∉ p.1.data ∧ '\n' ∉ (renderVal p.2).data :=
      fun p hp => hm p (List.mem_cons_of_mem _ hp)
    by_cases h : lineKind v = true
    · have hkv := hm (k, v) (List.mem_cons_self _ _) h
      have hint : '\n' ∉ k.data ++ '=' :: (renderVal v).data := by
        intro hmem
        rcases List.mem_append.1 hmem with h1 | h2
        · exact hkv.1 h1
        · rcases List.mem_cons.1 h2 with h3 | h4
          · exact absurd h3 (by decide)
          · exact hkv.2 h4
      have hline : renderLine k v ++ renderAll rest =
          (k.data ++ '=' :: (renderVal v).data) ++ '\n' :: renderAll rest := by
        simp [renderLine, List.append_assoc]
      show splitOnChar '\n'
          ((if lineKind v then renderLine k v else []) ++ renderAll rest) = _
      rw [if_pos h, hline, splitOnChar_append_line _ _ hint, ih hrest]
      show _ = (if lineKind v then
          (k.data ++ '=' :: (renderVal v).data) :: linesOf rest
        else linesOf rest) ++ [[]]
      rw [if_pos h, List.cons_append]
    · show splitOnChar '\n'
          ((if lineKind v then renderLine k v else []) ++ renderAll rest) = _
      rw [if_neg h, List.nil_append, ih hrest]
      show _ = (if lineKind v then
          (k.data ++ '=' :: (renderVal v).data) :: linesOf rest
        else linesOf rest) ++ [[]]
      rw [if_neg h]

theorem map_stripCR_linesOf (m : List (String × GoVal))
    (hm : ∀ p ∈ m, lineKind p.2 = true →
      (renderVal p.2).data.getLast? ≠ some '\r') :
    (linesOf m).map stripCR = linesOf m := by
  induction m with
  | nil => rfl
  | cons p rest ih =>
    obtain ⟨k, v⟩ := p
    have hrest := fun p hp => hm p (List.mem_cons_of_mem _ hp)
    by_cases h : lineKind v = true
    · have hcr := hm (k, v) (List.mem_cons_self _ _) h
      have hs : stripCR (k.data ++ '=' :: (renderVal v).data) =
          k.data ++ '=' :: (renderVal v).data :=
        stripCR_eq_self _ (keyline_getLast_ne _ _ hcr)
      show List.map stripCR (if lineKind v then
          (k.data ++ '=' :: (renderVal v).data) :: linesOf rest
        else linesOf rest) = (if lineKind v then
          (k.data ++ '=' :: (renderVal v).data) :: linesOf rest
        else linesOf rest)
      rw [if_pos h, List.map_cons, hs, ih hrest]
    · show List.map stripCR (if lineKind v then
          (k.data ++ '=' :: (renderVal v).data) :: linesOf rest
        else linesOf rest) = (if lineKind v then
          (k.data ++ '=' :: (renderVal v).data) :: linesOf rest
        else linesOf rest)
      rw [if_neg h, ih hrest]

theorem scanLines_renderAll (m : List (String × GoVal))
    (hm : ∀ p ∈ m, lineKind p.2 = true →
      '\n' ∉ p.1.data ∧ '\n' ∉ (renderVal p.2).data ∧
      (renderVal p.2).data.getLast? ≠ some '\r') :
    scanLines (renderAll m) = linesOf m := by
  unfold scanLines
  dsimp only
  rw [splitOnChar_renderAll m (fun p hp hl => ⟨(hm p hp hl).1, (hm p hp hl).2.1⟩),
    List.getLast?_concat]
  dsimp only
  rw [List.dropLast_concat]
  exact map_stripCR_linesOf m (fun p hp hl => (hm p hp hl).2.2)

theorem lineStep_keyline (m : List (String × GoVal)) (k : String)
    (b : List Char) (h1 : '=' ∉ k.data) (h2 : k.data.head? ≠ some '#') :
    lineStep m (k.data ++ '=' :: b) =
      match parseFloat b with
      | some q => mapPut m k (.vfloat q)
      | none => mapPut m k (.vstr ⟨b⟩) := by
  have hhead : ¬((k.data ++ '=' :: b).head? = some '#') := by
    cases hk : k.data with
    | nil => simp
    | cons c cs =>
      rw [hk] at h2
      simp only [List.head?_cons, ne_eq, Option.some.injEq] at h2
      simp only [List.cons_append, List.head?_cons, Option.some.injEq]
      exact h2
  unfold lineStep
  rw [if_neg hhead, splitFirst_keyline _ _ h1]

theorem foldl_lineStep_other (ls : List (String × GoVal)) (k₀ : String) :
    ∀ acc : List (String × GoVal),
      (∀ p ∈ ls, goodKey p.1 ∧ p.1 ≠ k₀) →
      mapGet (List.foldl lineStep acc (linesOf ls)) k₀ = mapGet acc k₀ := by
  induction ls with
  | nil => intro acc _; rfl
  | cons p rest ih =>
    intro acc h
    obtain ⟨k, v⟩ := p
    have hk := h (k, v) (List.mem_cons_self _ _)
    have hrest := fun p hp => h p (List.mem_cons_of_mem _ hp)
    by_cases hl : lineKind v = true
    · show mapGet (List.foldl lineStep acc (if lineKind v then
          (k.data ++ '=' :: (renderVal v).data) :: linesOf rest
        else linesOf rest)) k₀ = mapGet acc k₀
      rw [if_pos hl, List.foldl_cons,
        lineStep_keyline acc k (renderVal v).data hk.1.2.1 hk.1.2.2]
      cases hp : parseFloat (renderVal v).data with
      | some q =>
        dsimp only
        rw [ih _ hrest, mapGet_mapPut_ne _ _ _ _ hk.2]
      | none =>
        dsimp only
        rw [ih _ hrest, mapGet_mapPut_ne _ _ _ _ hk.2]
    · show mapGet (List.foldl lineStep acc (if lineKind v then
          (k.data ++ '=' :: (renderVal v).data) :: linesOf rest
        else linesOf rest)) k₀ = mapGet acc k₀
      rw [if_neg hl]
      exact ih _ hrest

theorem foldl_lineStep_mem (m : List (String × GoVal)) (k₀ : String)
    (v₀ : GoVal) (hline : lineKind v₀ = true) :
    ∀ acc : List (String × GoVal),
      (m.map Prod.fst).Nodup →
      (∀ p ∈ m, goodKey p.1) →
      mapGet m k₀ = some v₀ →
      mapGet (List.foldl lineStep acc (linesOf m)) k₀ =
        some (match parseFloat (renderVal v₀).data with
          | some q => GoVal.vfloat q
          | none => GoVal.vstr ⟨(renderVal v₀).data⟩) := by
  induction m with
  | nil =>
    intro acc _ _ hmem
    exact absurd hmem (by simp [mapGet])
  | cons p rest ih =>
    intro acc hnd hg hmem
    obtain ⟨k, v⟩ := p
    have hgk : goodKey k := hg (k, v) (List.mem_cons_self _ _)
    have hgrest : ∀ p ∈ rest, goodKey p.1 :=
      fun p hp => hg p (List.mem_cons_of_mem _ hp)
    rw [List.map_cons] at hnd
    have hndrest : (rest.map Prod.fst).Nodup := (List.nodup_cons.1 hnd).2
    by_cases hk : k = k₀
    · subst hk
      have hv : v = v₀ := by
        rw [mapGet_cons, if_pos rfl] at hmem
        injection hmem
      subst hv
      have hnotin : ∀ p ∈ rest, goodKey p.1 ∧ p.1 ≠ k := by
        intro p hp
        refine ⟨hgrest p hp, fun e => (List.nodup_cons.1 hnd).1 ?_⟩
        rw [← e]
        exact List.mem_map.2 ⟨p, hp, rfl⟩
      show mapGet (List.foldl lineStep acc (if lineKind v then
          (k.data ++ '=' :: (renderVal v).data) :: linesOf rest
        else linesOf rest)) k = _
      rw [if_pos hline, List.foldl_cons,
        lineStep_keyline acc k (renderVal v).data hgk.2.1 hgk.2.2,
        foldl_lineStep_other rest k _ hnotin]
      cases hp : parseFloat (renderVal v).data with
      | some q =>
        dsimp only
        rw [mapGet_mapPut_self]
      | none =>
        dsimp only
        rw [mapGet_mapPut_self]
    · have hmem' : mapGet rest k₀ = some v₀ := by
        rw [mapGet_cons, if_neg hk] at hmem
        exact hmem
      by_cases hl : lineKind v = true
      · show mapGet (List.foldl lineStep acc (if lineKind v then
            (k.data ++ '=' :: (renderVal v).data) :: linesOf rest
          else linesOf rest)) k₀ = _
        rw [if_pos hl, List.foldl_cons,
          lineStep_keyline acc k (renderVal v).data hgk.2.1 hgk.2.2]
        cases hp : parseFloat (renderVal v).data with
        | some q =>
          dsimp only
          exact ih _ hndrest hgrest hmem'
        | none =>
          dsimp only
          exact ih _ hndrest hgrest hmem'
      · show mapGet (List.foldl lineStep acc (if lineKind v then
            (k.data ++ '=' :: (renderVal v).data) :: linesOf rest
          else linesOf rest)) k₀ = _
        rw [if_neg hl]
        exact ih _ hndrest hgrest hmem'

theorem parseFloat_314 : parseFloat "3.14".data = some (3.14 : ℚ) := by
  have h : parseFloat "3.14".data =
      some (((1 : ℤ) : ℚ) * ((digitsVal ['3'] : ℚ) +
        (digitsVal ['1', '4'] : ℚ) / (10 : ℚ) ^ (['1', '4'].length))) := rfl
  rw [h, mant_314]

/-- C9: with the line codec, on any `LineRoundSafe` store, an entry
holding the string `"3.14"` that is saved (error-free) and reloaded comes
back as the number `3.14`, not as the string `"3.14"`. -/
theorem lineCodec_roundtrip_314 (c : Config) (k : String)
    (hsafe : LineRoundSafe c.values) (ht : c.ctype = ConfigType.Line)
    (hk : c.Get k = some (.vstr "3.14")) :
    ∃ f : WFile, c.SaveFile (.created ⟨[], []⟩) = (some f, none) ∧
      ∀ c' : Config,
        LoadConfigFile c.Filepath (.ok ⟨f.written⟩) .Line = .ok c' →
        c'.Get k = some (.vfloat (3.14 : ℚ)) := by
  obtain ⟨vals, path, t⟩ := c
  have ht' : t = ConfigType.Line := ht
  subst ht'
  have hk' : mapGet vals k = some (.vstr "3.14") := hk
  have hsafe' : LineRoundSafe vals := hsafe
  refine ⟨⟨renderAll vals, []⟩, ?_, ?_⟩
  · show Config.SaveFile ⟨vals, path, .Line⟩ (.created ⟨[], []⟩) = _
    unfold Config.SaveFile
    dsimp only
    rw [writeFileLine_ok]
    rw [List.nil_append]
  · intro c' hc'
    have hload : LoadConfigFile path (.ok ⟨renderAll vals⟩) .Line =
        .ok ⟨parseFileLine ⟨renderAll vals⟩, path, .Line⟩ := rfl
    rw [hload] at hc'
    injection hc' with h
    subst h
    show mapGet (parseFileLine ⟨renderAll vals⟩) k = _
    have hpf : parseFileLine ⟨renderAll vals⟩ =
        List.foldl lineStep [] (scanLines (renderAll vals)) := rfl
    have hm : ∀ p ∈ vals, lineKind p.2 = true →
        '\n' ∉ p.1.data ∧ '\n' ∉ (renderVal p.2).data ∧
        (renderVal p.2).data.getLast? ≠ some '\r' := by
      intro p hp hl
      exact ⟨(hsafe'.2 p hp).1.1, ((hsafe'.2 p hp).2 hl).1,
        ((hsafe'.2 p hp).2 hl).2⟩
    rw [hpf, scanLines_renderAll vals hm,
      foldl_lineStep_mem vals k (.vstr "3.14") rfl [] hsafe'.1
        (fun p hp => (hsafe'.2 p hp).1) hk']
    have hr : (renderVal (GoVal.vstr "3.14")).data = "3.14".data := rfl
    rw [hr, parseFloat_314]

/-- Witness for C9 on the store `{"b": true, "pi": "3.14"}`. -/
theorem lineCodec_roundtrip_314_witness :
    LineRoundSafe [("b", GoVal.vbool true), ("pi", GoVal.vstr "3.14")] ∧
    Config.Get ⟨[("b", GoVal.vbool true), ("pi", GoVal.vstr "3.14")],
      "p", .Line⟩ "pi" = some (.vstr "3.14") ∧
    (∃ f : WFile,
      Config.SaveFile ⟨[("b", GoVal.vbool true), ("pi", GoVal.vstr "3.14")],
        "p", .Line⟩ (.created ⟨[], []⟩) = (some f, none) ∧
      ∀ c' : Config, LoadConfigFile "p" (.ok ⟨f.written⟩) .Line = .ok c' →
        c'.Get "pi" = some (.vfloat (3.14 : ℚ))) :=
  ⟨by decide, rfl,
    lineCodec_roundtrip_314 _ "pi" (by decide) rfl rfl⟩

end ConfigGo
